import Mathlib

/-!
# MiniGit: a shallow embedding of the storage core

This file embeds the MiniGit version-control core (`minigit.cpp` /
`minigit.h` / `main.cpp`) in Lean and proves the specification claims
about it.

Modelling conventions:
* File contents are Lean `String`s (a wrapper around `List Char`);
  the repository state `RepoFS` holds the raw content of the HEAD file,
  of the index file (`none` when the file does not exist), and an
  association list from object hash (the file name inside `objects/`)
  to object content.
* `std::map<std::string, std::string>` is modelled by `FileMap`, an
  association list kept sorted by key via `FileMap.insert`
  (insert-or-overwrite, exactly the semantics of `map::operator[]`).
* Line splitting follows `std::getline` (a trailing newline produces no
  extra empty line), and `stream >> a >> b` extraction is modelled by
  `tokens2` (skip whitespace, read a maximal non-whitespace token,
  twice; succeeds only when both tokens are non-empty).
* The hash function `std::hash<std::string>` is implementation defined,
  so every operation is parametrised by `hf : String → String`.
-/

namespace MiniGit

/-! ## Characters, lines and tokens -/

/-- Whitespace characters recognised by `operator>>` (C locale `isspace`). -/
def isWS (c : Char) : Bool :=
  c = ' ' || c = '\t' || c = '\n' || c = '\x0b' || c = '\x0c' || c = '\r'

/-- Split a character list into lines with `std::getline` semantics:
the empty input yields no lines, and a trailing newline does not yield a
final empty line. -/
def linesGo : List Char → List (List Char)
  | [] => []
  | c :: cs =>
    if c = '\n' then [] :: linesGo cs
    else
      match linesGo cs with
      | [] => [[c]]
      | l :: ls => (c :: l) :: ls

/-- The lines of a string, with `std::getline` semantics. -/
def strLines (s : String) : List String :=
  (linesGo s.data).map fun l => ⟨l⟩

/-- Extract one whitespace-delimited token: skip leading whitespace,
then read a maximal run of non-whitespace characters.  Returns the token
and the rest of the input. -/
def token (cs : List Char) : List Char × List Char :=
  let cs1 := cs.dropWhile isWS
  (cs1.takeWhile (fun c => !isWS c), cs1.dropWhile (fun c => !isWS c))

/-- Model of `stream >> a >> b` by `tokens2 cs`: both extractions must
produce a non-empty token. -/
def tokens2 (cs : List Char) : Option (String × String) :=
  let t1 := token cs
  let t2 := token t1.2
  if t1.1.isEmpty || t2.1.isEmpty then none else some (⟨t1.1⟩, ⟨t2.1⟩)

/-- The test `line.rfind(p, 0) == 0`, i.e. `line` starts with `p`. -/
def strStarts (line p : String) : Bool :=
  p.data.isPrefixOf line.data

/-- The call `line.substr(n)`: drop the first `n` characters. -/
def strDrop (line : String) (n : Nat) : String :=
  ⟨line.data.drop n⟩

/-! ## `std::map<std::string, std::string>` as a sorted association list -/

/-- A filename → hash mapping (`std::map<std::string, std::string>`). -/
abbrev FileMap := List (String × String)

/-- Key lookup (`map::find` / `map::count`). -/
def FileMap.find : FileMap → String → Option String
  | [], _ => none
  | (k, v) :: r, key => if key = k then some v else FileMap.find r key

/-- Insert-or-overwrite by key, keeping the list sorted by key
(`map[k] = v`). -/
def FileMap.insert : FileMap → String → String → FileMap
  | [], k, v => [(k, v)]
  | (k1, v1) :: r, k, v =>
    if k < k1 then (k, v) :: (k1, v1) :: r
    else if k = k1 then (k, v) :: r
    else (k1, v1) :: FileMap.insert r k v

/-- The `std::map` invariant: entries strictly sorted by key. -/
def FileMap.Sorted (m : FileMap) : Prop :=
  m.Pairwise fun a b => a.1 < b.1

instance (m : FileMap) : Decidable m.Sorted :=
  List.instDecidablePairwise _

/-! ## Repository state -/

/-- The on-disk state of a repository: the `objects/` directory (hash →
content), the raw content of the `HEAD` file and of the `index` file
(`none` when the file does not exist). -/
structure RepoFS where
  objects : List (String × String)
  head : Option String
  index : Option String
deriving DecidableEq

/-- Look up an object in `objects/` by hash (file existence + read). -/
def objLookup (fsys : RepoFS) (h : String) : Option String :=
  FileMap.find fsys.objects h

/-- Write an object file: overwrite-or-create under the given name. -/
def storeInsert : List (String × String) → String → String → List (String × String)
  | [], k, v => [(k, v)]
  | (k1, v1) :: r, k, v =>
    if k = k1 then (k, v) :: r else (k1, v1) :: storeInsert r k v

/-- The call `writeFileContent(OBJECTS_DIR / h, c)`. -/
def writeObject (fsys : RepoFS) (h c : String) : RepoFS :=
  { fsys with objects := storeInsert fsys.objects h c }

/-! ## Staging area (`getStagingArea` / `setStagingArea`) -/

/-- One line of the index file: `filename ++ " " ++ hash ++ "\n"`. -/
def indexLine (p : String × String) : String :=
  p.1 ++ " " ++ p.2 ++ "\n"

/-- The serialised index file content written by `setStagingArea`. -/
def serializeIndex (m : FileMap) : String :=
  ⟨(m.map fun p => (indexLine p).data).flatten⟩

/-- Parse the index file content: for each line, `ss >> filename >> hash`
and insert into the map when both tokens parse. -/
def parseIndex (s : String) : FileMap :=
  (strLines s).foldl
    (fun m line =>
      match tokens2 line.data with
      | some (fn, h) => m.insert fn h
      | none => m)
    []

/-- Function `getStagingArea()`: empty map when the index file does not exist,
otherwise parse it. -/
def getStagingArea (fsys : RepoFS) : FileMap :=
  match fsys.index with
  | none => []
  | some s => parseIndex s

/-- Function `setStagingArea(m)`: overwrite the index file with the serialised map. -/
def setStagingArea (m : FileMap) (fsys : RepoFS) : RepoFS :=
  { fsys with index := some (serializeIndex m) }

/-! ## HEAD -/

/-- Function `getHEAD()`: empty string when the HEAD file does not exist,
otherwise its content. -/
def getHEAD (fsys : RepoFS) : String :=
  match fsys.head with
  | none => ""
  | some s => s

/-- Function `setHEAD(h)`: overwrite the HEAD file. -/
def setHEAD (h : String) (fsys : RepoFS) : RepoFS :=
  { fsys with head := some h }

/-! ## Commit objects -/

/-- The serialised text of a commit object, exactly as built in
`commit`: a `parent: ` line, a `message: ` line, then one
`file: <filename> <hash>` line per snapshot entry in map order. -/
def serializeCommit (parentCommit message : String) (commitFiles : FileMap) : String :=
  "parent: " ++ parentCommit ++ "\n" ++ "message: " ++ message ++ "\n" ++
    String.join (commitFiles.map fun p => "file: " ++ p.1 ++ " " ++ p.2 ++ "\n")

/-- Parse a commit object's `file: ` lines into a map
(the loop body of `getCommitFiles`). -/
def parseCommitFiles (content : String) : FileMap :=
  (strLines content).foldl
    (fun m line =>
      if strStarts line "file: " then
        match tokens2 (strDrop line 6).data with
        | some (fn, h) => m.insert fn h
        | none => m
      else m)
    []

/-- Function `getCommitFiles(commitHash)`: empty map for the empty hash, a thrown
`runtime_error` when the object file is missing, otherwise the parsed
`file: ` entries. -/
def getCommitFiles (fsys : RepoFS) (commitHash : String) : Except String FileMap :=
  if commitHash = "" then .ok []
  else
    match objLookup fsys commitHash with
    | none => .error ("Cannot find commit object: " ++ commitHash)
    | some content => .ok (parseCommitFiles content)

/-- Parse a commit object's `parent: ` and `message: ` header lines
(the loop body of `log`); later occurrences overwrite earlier ones,
initial values are empty strings. -/
def parseCommitMeta (content : String) : String × String :=
  (strLines content).foldl
    (fun pm line =>
      if strStarts line "parent: " then (strDrop line 8, pm.2)
      else if strStarts line "message: " then (pm.1, strDrop line 9)
      else pm)
    ("", "")

/-! ## `add` -/

/-- A working-tree path: an ordinary file with some content, or a
directory. -/
inductive FSEntry where
  | file (content : String)
  | dir
deriving DecidableEq

/-- The working tree: a lookup from path to entry. -/
abbrev WorkTree := List (String × FSEntry)

/-- Working-tree lookup (`fs::exists` / `fs::is_directory` / read). -/
def workFind : WorkTree → String → Option FSEntry
  | [], _ => none
  | (k, v) :: r, key => if key = k then some v else workFind r key

/-- The Content Store `put` of steps 2–3 of `add`: hash the content,
write the blob object only when absent, return the hash. -/
def putBlob (hf : String → String) (content : String) (fsys : RepoFS) :
    RepoFS × String :=
  let h := hf content
  (if objLookup fsys h = none then writeObject fsys h content else fsys, h)

/-- The accumulator of the loop in `add`: the in-memory staged map, the
repository state, and the stdout / stderr lines produced so far. -/
structure AddAcc where
  staged : FileMap
  fs : RepoFS
  outs : List String
  errs : List String

/-- One iteration of the loop in `add`: skip (with a warning) missing
paths and directories; otherwise read the content, store the blob if
absent, and stage filename → hash. -/
def addOne (hf : String → String) (work : WorkTree) (acc : AddAcc)
    (filename : String) : AddAcc :=
  match workFind work filename with
  | none =>
    { acc with errs := acc.errs ++ ["File not found: " ++ filename ++ ". Skipping."] }
  | some .dir =>
    { acc with errs := acc.errs ++ ["Cannot add directories: " ++ filename ++ ". Skipping."] }
  | some (.file content) =>
    let pb := putBlob hf content acc.fs
    { acc with
      staged := FileMap.insert acc.staged filename pb.2
      fs := pb.1
      outs := acc.outs ++ ["Staged " ++ filename] }

/-- Function `add(filenames)`: load the staging area, process each filename,
save the staging area.  Returns the new repository state, the stdout
lines, and the stderr lines. -/
def add (hf : String → String) (work : WorkTree) (filenames : List String)
    (fsys : RepoFS) : RepoFS × List String × List String :=
  let acc := filenames.foldl (addOne hf work)
    ⟨getStagingArea fsys, fsys, [], []⟩
  (setStagingArea acc.staged acc.fs, acc.outs, acc.errs)

/-- The effect of one `add` iteration on the staging map alone:
insert-or-overwrite filename → hash for an existing regular file,
identity for a missing path or a directory. -/
def addStep (hf : String → String) (work : WorkTree) (m : FileMap)
    (f : String) : FileMap :=
  match workFind work f with
  | some (.file c) => FileMap.insert m f (hf c)
  | _ => m

/-- The staged map produced by `add` alone (the projection of the loop
onto the staging map). -/
def addStaged (hf : String → String) (work : WorkTree) (staged : FileMap)
    (filenames : List String) : FileMap :=
  filenames.foldl (addStep hf work) staged

/-- The stderr warning produced by `add` for one filename, when any. -/
def addWarn (work : WorkTree) (f : String) : Option String :=
  match workFind work f with
  | none => some ("File not found: " ++ f ++ ". Skipping.")
  | some .dir => some ("Cannot add directories: " ++ f ++ ". Skipping.")
  | some (.file _) => none

/-! ## `commit` -/

/-- One write effect performed by the tail of `commit`, in program
order: write the commit object, update HEAD, overwrite the index. -/
inductive Effect where
  | writeObj (h c : String)
  | writeHEAD (h : String)
  | writeIndex (m : FileMap)
deriving DecidableEq

/-- Apply one commit effect to the repository state. -/
def applyEffect (fsys : RepoFS) : Effect → RepoFS
  | .writeObj h c => writeObject fsys h c
  | .writeHEAD h => setHEAD h fsys
  | .writeIndex m => setStagingArea m fsys

/-- Apply a list of effects left to right. -/
def applyEffects (fsys : RepoFS) (es : List Effect) : RepoFS :=
  es.foldl applyEffect fsys

/-- Function `commit(message)`.  Returns the final state, the write effects the
tail of the function performed in program order, and the stdout lines;
a thrown `runtime_error` (from `getCommitFiles`) is an `Except.error`. -/
def commit (hf : String → String) (message : String) (fsys : RepoFS) :
    Except String (RepoFS × List Effect × List String) := do
  let stagedFiles := getStagingArea fsys
  if stagedFiles = [] then
    return (fsys, [], ["Nothing to commit, working tree clean."])
  let parentCommit := getHEAD fsys
  let parentFiles ← if parentCommit = "" then pure [] else getCommitFiles fsys parentCommit
  let commitFiles := stagedFiles.foldl (fun m p => FileMap.insert m p.1 p.2) parentFiles
  let commitString := serializeCommit parentCommit message commitFiles
  let commitHash := hf commitString
  let fs1 := writeObject fsys commitHash commitString
  let fs2 := setHEAD commitHash fs1
  let fs3 := setStagingArea [] fs2
  return (fs3, [.writeObj commitHash commitString, .writeHEAD commitHash, .writeIndex []],
    ["Committed [" ++ commitHash ++ "] " ++ message])

/-- The snapshot merge in `commit`: the parent's snapshot with every
staged entry inserted-or-overwritten by filename. -/
def mergeStaged (parentFiles stagedFiles : FileMap) : FileMap :=
  stagedFiles.foldl (fun m p => FileMap.insert m p.1 p.2) parentFiles

/-- The `commit` branch of `main`: the `try`/`catch` maps a normal
return to exit code 0 and a thrown exception to exit code 1. -/
def runCommit (hf : String → String) (message : String) (fsys : RepoFS) :
    RepoFS × Nat :=
  match commit hf message fsys with
  | .ok (fs1, _, _) => (fs1, 0)
  | .error _ => (fsys, 1)

/-! ## `log` -/

/-- The traversal loop of `log`, with explicit fuel (the C++ loop has
none; the spec argues no cycle can occur).  Returns the
(hash, message) pairs printed and, when the walk hits a missing commit
object, the fatal stderr message. -/
def logLoop (fsys : RepoFS) : Nat → String → List (String × String) × Option String
  | 0, _ => ([], none)
  | fuel + 1, h =>
    if h = "" then ([], none)
    else
      match objLookup fsys h with
      | none => ([], some ("Fatal: Missing commit object " ++ h))
      | some content =>
        let meta := parseCommitMeta content
        let rest := logLoop fsys fuel meta.1
        ((h, meta.2) :: rest.1, rest.2)

/-! ## Derived notions used by the specification claims -/

/-- A non-empty whitespace-free string: one that survives
`stream >> tok` extraction and contains no line break. -/
def SafeTok (s : String) : Prop :=
  s.data ≠ [] ∧ ∀ c ∈ s.data, isWS c = false

instance (s : String) : Decidable (SafeTok s) := by
  unfold SafeTok; infer_instance

/-- The object store is well formed: object file names are distinct and
each equals the content hash of the stored bytes. -/
def StoreWF (hf : String → String) (os : List (String × String)) : Prop :=
  (os.map Prod.fst).Nodup ∧ ∀ p ∈ os, p.1 = hf p.2

instance (hf : String → String) (os : List (String × String)) :
    Decidable (StoreWF hf os) := by
  unfold StoreWF; infer_instance

/-- The text of the commit object that `commit` builds from the state
`fsys` once the parent snapshot has resolved to `parentFiles`. -/
def commitText (msg : String) (fsys : RepoFS) (parentFiles : FileMap) : String :=
  serializeCommit (getHEAD fsys) msg (mergeStaged parentFiles (getStagingArea fsys))

/-- The effect trace of a successful non-trivial `commit`. -/
def commitTrace (hf : String → String) (msg : String) (fsys : RepoFS)
    (parentFiles : FileMap) : List Effect :=
  [.writeObj (hf (commitText msg fsys parentFiles)) (commitText msg fsys parentFiles),
   .writeHEAD (hf (commitText msg fsys parentFiles)),
   .writeIndex []]

/-! ## Concrete example states -/

/-- An example repository: one root commit tracking file `A`, with file
`B` staged. -/
def wRepo : RepoFS :=
  ⟨[("h1", "parent: \nmessage: first\nfile: A hA\n")], some "h1", some "B hB\n"⟩

/-- An example working tree: a regular file `A` and a directory `D`. -/
def wWork : WorkTree := [("A", .file "ca"), ("D", .dir)]

/-- The state of a directory with no repository files at all. -/
def wEmpty : RepoFS := ⟨[], none, none⟩

/-- An example repository whose single commit object has a dangling
parent reference `h1`. -/
def wDangling : RepoFS :=
  ⟨[("h2", "parent: h1\nmessage: second\n")], some "h2", none⟩

/-! ## Lemmas about `FileMap` -/

theorem FileMap.find_insert (m : FileMap) (k v k' : String) :
    FileMap.find (FileMap.insert m k v) k' =
      if k' = k then some v else FileMap.find m k' := by
  induction m with
  | nil => simp [FileMap.insert, FileMap.find]
  | cons p r ih =>
    obtain ⟨k1, v1⟩ := p
    by_cases h1 : k < k1
    · rw [FileMap.insert, if_pos h1]
      rfl
    · by_cases h2 : k = k1
      · subst h2
        simp only [FileMap.insert, if_neg h1, if_pos rfl, FileMap.find]
        by_cases h3 : k' = k <;> simp [h3]
      · simp only [FileMap.insert, if_neg h1, if_neg h2, FileMap.find]
        by_cases h3 : k' = k1
        · subst h3
          have : ¬ k' = k := fun h => h2 h.symm
          simp [this]
        · simp [h3, ih]

theorem FileMap.mem_insert (m : FileMap) (k v : String) (p : String × String)
    (hp : p ∈ FileMap.insert m k v) : p ∈ m ∨ p = (k, v) := by
  induction m with
  | nil =>
    rw [FileMap.insert] at hp
    exact Or.inr (List.mem_singleton.mp hp)
  | cons q r ih =>
    obtain ⟨k1, v1⟩ := q
    rw [FileMap.insert] at hp
    by_cases h1 : k < k1
    · rw [if_pos h1] at hp
      rcases List.mem_cons.mp hp with h | h
      · exact Or.inr h
      · exact Or.inl h
    · by_cases h2 : k = k1
      · rw [if_neg h1, if_pos h2] at hp
        rcases List.mem_cons.mp hp with h | h
        · exact Or.inr h
        · exact Or.inl (List.mem_cons_of_mem _ h)
      · rw [if_neg h1, if_neg h2] at hp
        rcases List.mem_cons.mp hp with h | h
        · exact Or.inl (h ▸ List.mem_cons_self _ _)
        · rcases ih h with h' | h'
          · exact Or.inl (List.mem_cons_of_mem _ h')
          · exact Or.inr h'

theorem FileMap.insert_sorted (m : FileMap) (k v : String) (hm : m.Sorted) :
    (FileMap.insert m k v).Sorted := by
  induction m with
  | nil => simp [FileMap.insert, FileMap.Sorted]
  | cons q r ih =>
    obtain ⟨k1, v1⟩ := q
    rw [FileMap.Sorted, List.pairwise_cons] at hm
    obtain ⟨hk1, hr⟩ := hm
    by_cases h1 : k < k1
    · rw [FileMap.Sorted, FileMap.insert]
      simp only [if_pos h1]
      refine List.Pairwise.cons ?_ (List.Pairwise.cons hk1 hr)
      intro p hp
      rcases List.mem_cons.mp hp with h | h
      · simp [h, h1]
      · exact lt_trans h1 (hk1 p h)
    · by_cases h2 : k = k1
      · subst h2
        rw [FileMap.Sorted, FileMap.insert]
        simp only [if_neg h1, if_pos rfl]
        exact List.Pairwise.cons hk1 hr
      · have h3 : k1 < k := lt_of_le_of_ne (not_lt.mp h1) fun h => h2 h.symm
        rw [FileMap.Sorted, FileMap.insert]
        simp only [if_neg h1, if_neg h2]
        refine List.Pairwise.cons ?_ (ih hr)
        intro p hp
        rcases FileMap.mem_insert r k v p hp with h | h
        · exact hk1 p h
        · simp [h, h3]

/-- Any fold whose step is the identity or an insert preserves
sortedness. -/
theorem FileMap.foldl_sorted {α : Type} (step : FileMap → α → FileMap)
    (hstep : ∀ m x, step m x = m ∨ ∃ k v, step m x = FileMap.insert m k v)
    (l : List α) (m : FileMap) (hm : m.Sorted) : (l.foldl step m).Sorted := by
  induction l generalizing m with
  | nil => exact hm
  | cons x l ih =>
    rw [List.foldl_cons]
    refine ih (step m x) ?_
    rcases hstep m x with h | ⟨k, v, h⟩
    · rw [h]; exact hm
    · rw [h]; exact FileMap.insert_sorted m k v hm

theorem parseIndex_sorted (s : String) : (parseIndex s).Sorted := by
  refine FileMap.foldl_sorted _ ?_ _ _ (by simp [FileMap.Sorted])
  intro m line
  cases h : tokens2 line.data with
  | none => exact .inl (by simp [h])
  | some p => exact .inr ⟨p.1, p.2, by simp [h]⟩

theorem getStagingArea_sorted (fsys : RepoFS) : (getStagingArea fsys).Sorted := by
  rw [getStagingArea]
  cases fsys.index with
  | none => simp [FileMap.Sorted]
  | some s => exact parseIndex_sorted s

theorem parseCommitFiles_sorted (content : String) :
    (parseCommitFiles content).Sorted := by
  refine FileMap.foldl_sorted _ ?_ _ _ (by simp [FileMap.Sorted])
  intro m line
  by_cases hs : strStarts line "file: "
  · simp only [hs, if_true]
    cases h : tokens2 (strDrop line 6).data with
    | none => exact .inl (by simp [h])
    | some p => exact .inr ⟨p.1, p.2, by simp [h]⟩
  · exact .inl (by simp [hs])

theorem getCommitFiles_sorted (fsys : RepoFS) (h : String) (m : FileMap)
    (hm : getCommitFiles fsys h = .ok m) : m.Sorted := by
  rw [getCommitFiles] at hm
  by_cases he : h = ""
  · simp only [he, if_pos rfl] at hm
    cases hm
    simp [FileMap.Sorted]
  · simp only [if_neg he] at hm
    cases hl : objLookup fsys h with
    | none => rw [hl] at hm; cases hm
    | some c =>
      rw [hl] at hm
      cases hm
      exact parseCommitFiles_sorted c

theorem mergeStaged_sorted (pf st : FileMap) (hpf : pf.Sorted) :
    (mergeStaged pf st).Sorted := by
  refine FileMap.foldl_sorted _ ?_ _ _ hpf
  intro m p
  exact .inr ⟨p.1, p.2, rfl⟩

theorem FileMap.find_eq_none_of_not_mem (m : FileMap) (k : String)
    (h : k ∉ m.map Prod.fst) : FileMap.find m k = none := by
  induction m with
  | nil => rfl
  | cons p r ih =>
    simp only [List.map_cons, List.mem_cons] at h
    push_neg at h
    rw [FileMap.find, if_neg h.1]
    exact ih h.2

/-- The snapshot merge resolves each filename to the staged hash when
present, and to the parent's hash otherwise. -/
theorem mergeStaged_find (pf st : FileMap) (hnd : (st.map Prod.fst).Nodup)
    (k : String) :
    FileMap.find (mergeStaged pf st) k =
      (FileMap.find st k).or (FileMap.find pf k) := by
  induction st generalizing pf with
  | nil => simp [mergeStaged, FileMap.find, Option.or]
  | cons p r ih =>
    obtain ⟨k1, v1⟩ := p
    simp only [List.map_cons, List.nodup_cons] at hnd
    have hmerge : mergeStaged pf ((k1, v1) :: r) =
        mergeStaged (FileMap.insert pf k1 v1) r := by
      simp [mergeStaged]
    rw [hmerge, ih (FileMap.insert pf k1 v1) hnd.2]
    by_cases hk : k = k1
    · subst hk
      rw [FileMap.find_eq_none_of_not_mem r k hnd.1]
      simp [FileMap.find, FileMap.find_insert, Option.or]
    · simp [FileMap.find, FileMap.find_insert, hk, Option.or]

theorem FileMap.sorted_keys_nodup (m : FileMap) (hm : m.Sorted) :
    (m.map Prod.fst).Nodup := by
  have h : (m.map Prod.fst).Pairwise (· ≠ ·) := by
    rw [List.pairwise_map]
    exact hm.imp fun h => ne_of_lt h
  exact h

/-! ## Lemmas about the object store -/

theorem storeFind_insert (os : List (String × String)) (k v k' : String) :
    FileMap.find (storeInsert os k v) k' =
      if k' = k then some v else FileMap.find os k' := by
  induction os with
  | nil => simp [storeInsert, FileMap.find]
  | cons p r ih =>
    obtain ⟨k1, v1⟩ := p
    by_cases h1 : k = k1
    · subst h1
      simp only [storeInsert, if_pos rfl, FileMap.find]
      by_cases h2 : k' = k <;> simp [h2]
    · simp only [storeInsert, if_neg h1, FileMap.find]
      by_cases h2 : k' = k1
      · subst h2
        have : ¬ k' = k := fun h => h1 h.symm
        simp [this]
      · simp [h2, ih]

theorem storeInsert_of_find_none (os : List (String × String)) (k v : String)
    (h : FileMap.find os k = none) : storeInsert os k v = os ++ [(k, v)] := by
  induction os with
  | nil => rfl
  | cons p r ih =>
    obtain ⟨k1, v1⟩ := p
    rw [FileMap.find] at h
    by_cases h1 : k = k1
    · rw [if_pos h1] at h; cases h
    · rw [if_neg h1] at h
      rw [storeInsert, if_neg h1, ih h]
      rfl

theorem storeInsert_of_find_some (os : List (String × String)) (k v : String)
    (h : FileMap.find os k = some v) : storeInsert os k v = os := by
  induction os with
  | nil => cases h
  | cons p r ih =>
    obtain ⟨k1, v1⟩ := p
    rw [FileMap.find] at h
    by_cases h1 : k = k1
    · subst h1
      rw [if_pos rfl] at h
      injection h with h
      subst h
      rw [storeInsert, if_pos rfl]
    · rw [if_neg h1] at h
      rw [storeInsert, if_neg h1, ih h]

theorem FileMap.find_some_mem (os : List (String × String)) (k v : String)
    (h : FileMap.find os k = some v) : (k, v) ∈ os := by
  induction os with
  | nil => cases h
  | cons p r ih =>
    obtain ⟨k1, v1⟩ := p
    rw [FileMap.find] at h
    by_cases h1 : k = k1
    · subst h1
      rw [if_pos rfl] at h
      injection h with h
      subst h
      exact List.mem_cons_self _ _
    · rw [if_neg h1] at h
      exact List.mem_cons_of_mem _ (ih h)

/-! ## Lemmas about strings, lines and tokens -/

theorem data_append (a b : String) : (a ++ b).data = a.data ++ b.data := rfl

theorem foldl_append_data (l : List String) (init : String) :
    (l.foldl (· ++ ·) init).data = init.data ++ (l.map String.data).flatten := by
  induction l generalizing init with
  | nil => simp
  | cons a l ih => simp [ih, List.flatten]

theorem join_data (l : List String) :
    (String.join l).data = (l.map String.data).flatten := by
  simpa [String.join] using foldl_append_data l ""

theorem linesGo_append (l rest : List Char) (hl : '\n' ∉ l) :
    linesGo (l ++ '\n' :: rest) = l :: linesGo rest := by
  induction l with
  | nil => simp [linesGo]
  | cons c l ih =>
    have hc : ¬ c = '\n' := fun h => hl (h ▸ List.mem_cons_self _ _)
    have hl' : '\n' ∉ l := fun h => hl (List.mem_cons_of_mem _ h)
    rw [List.cons_append, linesGo, if_neg hc, ih hl']

theorem takeWhile_append_stop (p : Char → Bool) (a : List Char) (b : Char)
    (c : List Char) (ha : ∀ x ∈ a, p x = true) (hb : p b = false) :
    (a ++ b :: c).takeWhile p = a := by
  induction a with
  | nil => simp [List.takeWhile_cons, hb]
  | cons x a ih =>
    have hx : p x = true := ha x (List.mem_cons_self _ _)
    simp [List.takeWhile_cons, hx, ih fun y hy => ha y (List.mem_cons_of_mem _ hy)]

theorem dropWhile_append_stop (p : Char → Bool) (a : List Char) (b : Char)
    (c : List Char) (ha : ∀ x ∈ a, p x = true) (hb : p b = false) :
    (a ++ b :: c).dropWhile p = b :: c := by
  induction a with
  | nil => simp [List.dropWhile_cons, hb]
  | cons x a ih =>
    have hx : p x = true := ha x (List.mem_cons_self _ _)
    rw [List.cons_append, List.dropWhile_cons, hx]
    exact ih fun y hy => ha y (List.mem_cons_of_mem _ hy)

theorem takeWhile_all (p : Char → Bool) (a : List Char)
    (ha : ∀ x ∈ a, p x = true) : a.takeWhile p = a := by
  induction a with
  | nil => rfl
  | cons x a ih =>
    have hx : p x = true := ha x (List.mem_cons_self _ _)
    simp [List.takeWhile_cons, hx, ih fun y hy => ha y (List.mem_cons_of_mem _ hy)]

theorem dropWhile_all (p : Char → Bool) (a : List Char)
    (ha : ∀ x ∈ a, p x = true) : a.dropWhile p = [] := by
  induction a with
  | nil => rfl
  | cons x a ih =>
    rw [List.dropWhile_cons, ha x (List.mem_cons_self _ _)]
    exact ih fun y hy => ha y (List.mem_cons_of_mem _ hy)

theorem dropWhile_head_neg (p : Char → Bool) (a : List Char)
    (ha : a ≠ []) (h0 : ∀ x ∈ a, p x = false) : a.dropWhile p = a := by
  cases a with
  | nil => cases ha rfl
  | cons x a =>
    have hx : p x = false := h0 x (List.mem_cons_self _ _)
    simp [List.dropWhile_cons, hx]

/-- Extraction `stream >> a >> b` on a line of the form `"<k> <v>"` with safe
tokens recovers exactly the pair. -/
theorem tokens2_pairLine (k v : String) (hk : SafeTok k) (hv : SafeTok v) :
    tokens2 (k.data ++ ' ' :: v.data) = some (k, v) := by
  obtain ⟨hk0, hk1⟩ := hk
  obtain ⟨hv0, hv1⟩ := hv
  have hsp : isWS ' ' = true := rfl
  have hdrop1 : (k.data ++ ' ' :: v.data).dropWhile isWS = k.data ++ ' ' :: v.data := by
    cases hkd : k.data with
    | nil => cases hk0 hkd
    | cons x xs =>
      rw [List.cons_append, List.dropWhile_cons]
      have : isWS x = false := hk1 x (by rw [hkd]; exact List.mem_cons_self _ _)
      rw [this]
      simp
  have htake1 : (k.data ++ ' ' :: v.data).takeWhile (fun c => !isWS c) = k.data :=
    takeWhile_append_stop _ _ _ _ (fun x hx => by simp [hk1 x hx]) (by simp [hsp])
  have hdrop2 : (k.data ++ ' ' :: v.data).dropWhile (fun c => !isWS c) = ' ' :: v.data :=
    dropWhile_append_stop _ _ _ _ (fun x hx => by simp [hk1 x hx]) (by simp [hsp])
  have hdrop3 : (' ' :: v.data).dropWhile isWS = v.data := by
    rw [List.dropWhile_cons, hsp]
    simp only []
    exact dropWhile_head_neg isWS v.data hv0 hv1
  have htake2 : v.data.takeWhile (fun c => !isWS c) = v.data :=
    takeWhile_all _ _ fun x hx => by simp [hv1 x hx]
  have hne : ¬((k.data.isEmpty || v.data.isEmpty) = true) := by
    simp [List.isEmpty_iff, hk0, hv0]
  rw [tokens2, token, token]
  simp only [hdrop1, htake1, hdrop2, hdrop3, htake2]
  rw [if_neg hne]

/-! ## Round trip of the staging index -/

theorem insert_append_of_forall_lt (m : FileMap) (k v : String)
    (hlt : ∀ p ∈ m, p.1 < k) : FileMap.insert m k v = m ++ [(k, v)] := by
  induction m with
  | nil => rfl
  | cons q r ih =>
    obtain ⟨k1, v1⟩ := q
    have h1 : k1 < k := hlt (k1, v1) (List.mem_cons_self _ _)
    rw [FileMap.insert, if_neg (asymm h1), if_neg (ne_of_gt h1),
      ih fun p hp => hlt p (List.mem_cons_of_mem _ hp)]
    rfl

theorem foldl_insert_eq_append (rest acc : FileMap)
    (h : (acc ++ rest).Sorted) :
    rest.foldl (fun m p => FileMap.insert m p.1 p.2) acc = acc ++ rest := by
  induction rest generalizing acc with
  | nil => simp
  | cons p rest ih =>
    obtain ⟨k, v⟩ := p
    have hlt : ∀ q ∈ acc, q.1 < k := by
      intro q hq
      rw [FileMap.Sorted, List.pairwise_append] at h
      exact h.2.2 q hq (k, v) (List.mem_cons_self _ _)
    rw [List.foldl_cons]
    have hacc : FileMap.insert acc k v = acc ++ [(k, v)] :=
      insert_append_of_forall_lt acc k v hlt
    rw [hacc]
    have h' : ((acc ++ [(k, v)]) ++ rest).Sorted := by
      rw [List.append_assoc]
      exact h
    rw [ih (acc ++ [(k, v)]) h', List.append_assoc, List.singleton_append]

theorem indexLine_data (p : String × String) :
    (indexLine p).data = (p.1.data ++ ' ' :: p.2.data) ++ ['\n'] := by
  have h : (indexLine p).data = ((p.1.data ++ [' ']) ++ p.2.data) ++ ['\n'] := rfl
  rw [h, List.append_assoc p.1.data [' '] p.2.data, List.singleton_append]

theorem serializeIndex_data (m : FileMap) :
    (serializeIndex m).data =
      (m.map fun p => (p.1.data ++ ' ' :: p.2.data) ++ ['\n']).flatten := by
  have h : (m.map fun p => (indexLine p).data) =
      m.map fun p => (p.1.data ++ ' ' :: p.2.data) ++ ['\n'] :=
    List.map_congr_left fun p _ => indexLine_data p
  calc (serializeIndex m).data
      = (m.map fun p => (indexLine p).data).flatten := rfl
    _ = _ := by rw [h]

theorem strLines_serializeIndex (m : FileMap)
    (hsafe : ∀ p ∈ m, SafeTok p.1 ∧ SafeTok p.2) :
    strLines (serializeIndex m) =
      m.map fun p => (⟨p.1.data ++ ' ' :: p.2.data⟩ : String) := by
  rw [strLines, serializeIndex_data]
  have key : ∀ (l : FileMap), (∀ p ∈ l, SafeTok p.1 ∧ SafeTok p.2) →
      linesGo ((l.map fun p => (p.1.data ++ ' ' :: p.2.data) ++ ['\n']).flatten) =
        l.map fun p => p.1.data ++ ' ' :: p.2.data := by
    intro l
    induction l with
    | nil => intro _; rfl
    | cons p r ih =>
      intro hsf
      obtain ⟨⟨hk0, hk1⟩, ⟨hv0, hv1⟩⟩ := hsf p (List.mem_cons_self _ _)
      have hnl : '\n' ∉ p.1.data ++ ' ' :: p.2.data := by
        intro hmem
        rcases List.mem_append.mp hmem with h | h
        · exact absurd (hk1 _ h) (by simp [isWS])
        · rcases List.mem_cons.mp h with h | h
          · exact absurd h (by decide)
          · exact absurd (hv1 _ h) (by simp [isWS])
      rw [List.map_cons, List.flatten_cons, List.append_assoc, List.singleton_append,
        linesGo_append _ _ hnl,
        ih fun q hq => hsf q (List.mem_cons_of_mem _ hq), List.map_cons]
  rw [key m hsafe, List.map_map]
  rfl

/-- The staging-index round trip, for `std::map` inputs whose filenames
and hashes are non-empty and whitespace-free. -/
theorem parseIndex_serializeIndex (m : FileMap) (hs : m.Sorted)
    (hsafe : ∀ p ∈ m, SafeTok p.1 ∧ SafeTok p.2) :
    parseIndex (serializeIndex m) = m := by
  rw [parseIndex, strLines_serializeIndex m hsafe, List.foldl_map]
  have step : ∀ (acc : FileMap) (p : String × String), p ∈ m →
      (match tokens2 (⟨p.1.data ++ ' ' :: p.2.data⟩ : String).data with
        | some (fn, h) => FileMap.insert acc fn h
        | none => acc) = FileMap.insert acc p.1 p.2 := by
    intro acc p hp
    obtain ⟨hk, hv⟩ := hsafe p hp
    have : (⟨p.1.data ++ ' ' :: p.2.data⟩ : String).data = p.1.data ++ ' ' :: p.2.data := rfl
    rw [this, tokens2_pairLine p.1 p.2 hk hv]
  calc m.foldl (fun acc p =>
          match tokens2 (⟨p.1.data ++ ' ' :: p.2.data⟩ : String).data with
          | some (fn, h) => FileMap.insert acc fn h
          | none => acc) []
      = m.foldl (fun acc p => FileMap.insert acc p.1 p.2) [] := by
        apply List.foldl_ext
        intro acc p hp
        exact step acc p hp
    _ = m := by
        have := foldl_insert_eq_append m [] (by simpa using hs)
        simpa using this

/-! ## Store well-formedness and deduplication -/

theorem FileMap.mem_find (os : List (String × String)) (k v : String)
    (h : (k, v) ∈ os) : ∃ v', FileMap.find os k = some v' := by
  induction os with
  | nil => cases h
  | cons p r ih =>
    obtain ⟨k1, v1⟩ := p
    by_cases h1 : k = k1
    · exact ⟨v1, by rw [FileMap.find, if_pos h1]⟩
    · rcases List.mem_cons.mp h with h' | h'
      · cases h'; exact absurd rfl h1
      · obtain ⟨v', hv'⟩ := ih h'
        exact ⟨v', by rw [FileMap.find, if_neg h1, hv']⟩

theorem FileMap.not_mem_of_find_none (os : List (String × String)) (k v : String)
    (h : FileMap.find os k = none) : (k, v) ∉ os := by
  intro hmem
  obtain ⟨v', hv'⟩ := FileMap.mem_find os k v hmem
  rw [h] at hv'
  cases hv'

theorem FileMap.not_mem_keys_of_find_none (os : List (String × String)) (k : String)
    (h : FileMap.find os k = none) : k ∉ os.map Prod.fst := by
  intro hmem
  obtain ⟨p, hp, hpk⟩ := List.mem_map.mp hmem
  obtain ⟨a, b⟩ := p
  cases hpk
  exact FileMap.not_mem_of_find_none os a b h hp

/-- In a store with distinct keys where every entry with content `C`
sits under key `key`, the entries holding `C` are exactly `[(key, C)]`. -/
theorem filter_content_singleton (os : List (String × String)) (C key : String)
    (hmem : (key, C) ∈ os) (hkeys : (os.map Prod.fst).Nodup)
    (hkey : ∀ p ∈ os, p.2 = C → p.1 = key) :
    os.filter (fun p => p.2 == C) = [(key, C)] := by
  induction os with
  | nil => cases hmem
  | cons p r ih =>
    obtain ⟨k1, v1⟩ := p
    simp only [List.map_cons, List.nodup_cons] at hkeys
    by_cases hv : v1 = C
    · subst hv
      have hk1 : k1 = key := hkey (k1, v1) (List.mem_cons_self _ _) rfl
      subst hk1
      have hr : r.filter (fun p => p.2 == v1) = [] := by
        rw [List.filter_eq_nil_iff]
        intro p hp
        simp only [beq_iff_eq]
        intro hpc
        exact hkeys.1 (by
          have := hkey p (List.mem_cons_of_mem _ hp) hpc
          rw [← this]
          exact List.mem_map.mpr ⟨p, hp, rfl⟩)
      rw [List.filter_cons]
      simp [hr]
    · have hmem' : (key, C) ∈ r := by
        rcases List.mem_cons.mp hmem with h | h
        · cases h; exact absurd rfl hv
        · exact h
      rw [List.filter_cons]
      have : ¬ ((k1, v1).2 == C) = true := by simpa using hv
      simp only [this, if_neg]
      exact ih hmem' hkeys.2 fun p hp => hkey p (List.mem_cons_of_mem _ hp)

theorem putBlob_lookup (hf : String → String) (C : String) (fsys : RepoFS)
    (hinj : Function.Injective hf) (hwf : StoreWF hf fsys.objects) :
    objLookup (putBlob hf C fsys).1 (hf C) = some C := by
  rw [putBlob]
  cases h : objLookup fsys (hf C) with
  | none =>
    simp only [h, if_pos rfl]
    rw [objLookup, writeObject]
    simp [storeFind_insert]
  | some D =>
    have hmem := FileMap.find_some_mem fsys.objects (hf C) D h
    have hD : hf C = hf D := hwf.2 (hf C, D) hmem
    have hCD : C = D := hinj hD
    subst hCD
    simp [h]

theorem putBlob_wf (hf : String → String) (C : String) (fsys : RepoFS)
    (hwf : StoreWF hf fsys.objects) : StoreWF hf (putBlob hf C fsys).1.objects := by
  rw [putBlob]
  cases h : objLookup fsys (hf C) with
  | none =>
    simp only [h, if_pos rfl]
    rw [writeObject]
    have hins := storeInsert_of_find_none fsys.objects (hf C) C h
    constructor
    · show ((storeInsert fsys.objects (hf C) C).map Prod.fst).Nodup
      rw [hins, List.map_append]
      rw [List.nodup_append]
      refine ⟨hwf.1, by simp, ?_⟩
      intro k hk
      simp only [List.map_cons, List.map_nil, List.mem_singleton]
      intro hke
      subst hke
      exact FileMap.not_mem_keys_of_find_none fsys.objects (hf C) h hk
    · intro p hp
      show p.1 = hf p.2
      rw [hins] at hp
      rcases List.mem_append.mp hp with h' | h'
      · exact hwf.2 p h'
      · rcases List.mem_singleton.mp h' with rfl
        rfl
  | some D =>
    simp only [h]
    exact hwf

theorem putBlob_mono (hf : String → String) (C : String) (fsys : RepoFS)
    (k v : String) (h : objLookup fsys k = some v) :
    objLookup (putBlob hf C fsys).1 k = some v := by
  simp only [putBlob]
  split
  next h0 =>
    show FileMap.find (storeInsert fsys.objects (hf C) C) k = some v
    rw [storeFind_insert]
    by_cases hk : k = hf C
    · subst hk
      rw [h] at h0
      cases h0
    · rw [if_neg hk]
      exact h
  next h0 => exact h

/-! ## The successful `commit` path -/

/-- Computation of a successful non-trivial `commit`: with a non-empty
staging area and a resolvable parent snapshot, `commit` writes the
serialised merge snapshot, advances HEAD and clears the index, in that
order. -/
theorem commit_ok (hf : String → String) (msg : String) (fsys : RepoFS)
    (parentFiles : FileMap)
    (hne : getStagingArea fsys ≠ [])
    (hp : (if getHEAD fsys = "" then Except.ok [] else getCommitFiles fsys (getHEAD fsys)) =
      Except.ok parentFiles) :
    commit hf msg fsys = .ok
      (applyEffects fsys (commitTrace hf msg fsys parentFiles),
       commitTrace hf msg fsys parentFiles,
       ["Committed [" ++ hf (commitText msg fsys parentFiles) ++ "] " ++ msg]) := by
  simp only [commit]
  rw [if_neg hne]
  by_cases h : getHEAD fsys = ""
  · rw [if_pos h] at hp ⊢
    injection hp with hp
    subst hp
    rfl
  · rw [if_neg h] at hp ⊢
    rw [hp]
    rfl

theorem resolveParent_sorted (fsys : RepoFS) (parentFiles : FileMap)
    (hp : (if getHEAD fsys = "" then Except.ok [] else getCommitFiles fsys (getHEAD fsys)) =
      Except.ok parentFiles) : parentFiles.Sorted := by
  by_cases h : getHEAD fsys = ""
  · rw [if_pos h] at hp
    cases hp
    simp [FileMap.Sorted]
  · rw [if_neg h] at hp
    exact getCommitFiles_sorted _ _ _ hp

theorem getHEAD_applyTrace (hf : String → String) (msg : String) (fsys : RepoFS)
    (parentFiles : FileMap) :
    getHEAD (applyEffects fsys (commitTrace hf msg fsys parentFiles)) =
      hf (commitText msg fsys parentFiles) := rfl

theorem objLookup_applyTrace (hf : String → String) (msg : String) (fsys : RepoFS)
    (parentFiles : FileMap) :
    objLookup (applyEffects fsys (commitTrace hf msg fsys parentFiles))
        (hf (commitText msg fsys parentFiles)) =
      some (commitText msg fsys parentFiles) := by
  show FileMap.find (storeInsert fsys.objects _ _) _ = _
  rw [storeFind_insert, if_pos rfl]

/-! ## Lemmas about the `add` loop -/

theorem putBlob_head (hf : String → String) (c : String) (fsys : RepoFS) :
    (putBlob hf c fsys).1.head = fsys.head := by
  simp only [putBlob]
  split <;> rfl

theorem addOne_head (hf : String → String) (work : WorkTree) (acc : AddAcc)
    (f : String) : (addOne hf work acc f).fs.head = acc.fs.head := by
  rw [addOne]
  cases workFind work f with
  | none => rfl
  | some e =>
    cases e with
    | dir => rfl
    | file c => exact putBlob_head hf c acc.fs

theorem addLoop_head (hf : String → String) (work : WorkTree)
    (fns : List String) (acc : AddAcc) :
    (fns.foldl (addOne hf work) acc).fs.head = acc.fs.head := by
  induction fns generalizing acc with
  | nil => rfl
  | cons f fns ih => rw [List.foldl_cons, ih, addOne_head]

theorem addLoop_staged (hf : String → String) (work : WorkTree)
    (fns : List String) (acc : AddAcc) :
    (fns.foldl (addOne hf work) acc).staged = addStaged hf work acc.staged fns := by
  induction fns generalizing acc with
  | nil => rfl
  | cons f fns ih =>
    rw [List.foldl_cons, ih, addStaged, addStaged, List.foldl_cons]
    congr 1
    rw [addOne, addStep]
    cases workFind work f with
    | none => rfl
    | some e => cases e <;> rfl

theorem addLoop_errs (hf : String → String) (work : WorkTree)
    (fns : List String) (acc : AddAcc) :
    (fns.foldl (addOne hf work) acc).errs =
      acc.errs ++ fns.filterMap (addWarn work) := by
  induction fns generalizing acc with
  | nil => simp
  | cons f fns ih =>
    rw [List.foldl_cons, ih, List.filterMap_cons]
    rw [addOne, addWarn]
    cases workFind work f with
    | none => simp [List.append_assoc]
    | some e =>
      cases e with
      | dir => simp [List.append_assoc]
      | file c => simp

theorem addStep_skip (hf : String → String) (work : WorkTree) (m : FileMap)
    (f : String) (hsk : ∀ c, workFind work f ≠ some (.file c)) :
    addStep hf work m f = m := by
  rw [addStep]
  cases hw : workFind work f with
  | none => rfl
  | some e =>
    cases e with
    | dir => rfl
    | file c => exact absurd hw (hsk c)

theorem addStaged_find_not_mem (hf : String → String) (work : WorkTree)
    (st : FileMap) (fns : List String) (f : String) (hnm : f ∉ fns) :
    FileMap.find (addStaged hf work st fns) f = FileMap.find st f := by
  induction fns generalizing st with
  | nil => rfl
  | cons g fns ih =>
    have hfg : f ≠ g := fun h => hnm (h ▸ List.mem_cons_self _ _)
    have hnm' : f ∉ fns := fun h => hnm (List.mem_cons_of_mem _ h)
    rw [addStaged, List.foldl_cons, ← addStaged, ih _ hnm']
    rw [addStep]
    cases workFind work g with
    | none => rfl
    | some e =>
      cases e with
      | dir => rfl
      | file c => rw [FileMap.find_insert, if_neg hfg]

theorem addStaged_find_skip (hf : String → String) (work : WorkTree)
    (st : FileMap) (fns : List String) (f : String)
    (hsk : ∀ c, workFind work f ≠ some (.file c)) :
    FileMap.find (addStaged hf work st fns) f = FileMap.find st f := by
  induction fns generalizing st with
  | nil => rfl
  | cons g fns ih =>
    rw [addStaged, List.foldl_cons, ← addStaged, ih]
    by_cases hg : g = f
    · subst hg
      rw [addStep_skip hf work st g hsk]
    · rw [addStep]
      cases workFind work g with
      | none => rfl
      | some e =>
        cases e with
        | dir => rfl
        | file c => rw [FileMap.find_insert, if_neg fun h => hg h.symm]

theorem addStaged_find_file (hf : String → String) (work : WorkTree)
    (st : FileMap) (fns : List String) (f c : String) (hmem : f ∈ fns)
    (hc : workFind work f = some (.file c)) :
    FileMap.find (addStaged hf work st fns) f = some (hf c) := by
  induction fns generalizing st with
  | nil => cases hmem
  | cons g fns ih =>
    rw [addStaged, List.foldl_cons, ← addStaged]
    by_cases hm : f ∈ fns
    · exact ih _ hm
    · have hfg : f = g := by
        rcases List.mem_cons.mp hmem with h | h
        · exact h
        · exact absurd h hm
      subst hfg
      rw [addStaged_find_not_mem hf work _ fns f hm, addStep, hc,
        FileMap.find_insert, if_pos rfl]

theorem addStaged_find_isSome (hf : String → String) (work : WorkTree)
    (st : FileMap) (fns : List String) (f v : String)
    (h : FileMap.find st f = some v) :
    ∃ v', FileMap.find (addStaged hf work st fns) f = some v' := by
  induction fns generalizing st v with
  | nil => exact ⟨v, h⟩
  | cons g fns ih =>
    rw [addStaged, List.foldl_cons, ← addStaged]
    rw [addStep]
    cases workFind work g with
    | none => exact ih st v h
    | some e =>
      cases e with
      | dir => exact ih st v h
      | file c =>
        by_cases hfg : f = g
        · subst hfg
          exact ih _ (hf c) (by rw [FileMap.find_insert, if_pos rfl])
        · exact ih _ v (by rw [FileMap.find_insert, if_neg hfg]; exact h)

theorem addOne_mono (hf : String → String) (work : WorkTree) (acc : AddAcc)
    (f k v : String) (h : objLookup acc.fs k = some v) :
    objLookup (addOne hf work acc f).fs k = some v := by
  rw [addOne]
  cases workFind work f with
  | none => exact h
  | some e =>
    cases e with
    | dir => exact h
    | file c => exact putBlob_mono hf c acc.fs k v h

theorem addOne_wf (hf : String → String) (work : WorkTree) (acc : AddAcc)
    (f : String) (h : StoreWF hf acc.fs.objects) :
    StoreWF hf (addOne hf work acc f).fs.objects := by
  rw [addOne]
  cases workFind work f with
  | none => exact h
  | some e =>
    cases e with
    | dir => exact h
    | file c => exact putBlob_wf hf c acc.fs h

theorem addLoop_mono (hf : String → String) (work : WorkTree)
    (fns : List String) (acc : AddAcc) (k v : String)
    (h : objLookup acc.fs k = some v) :
    objLookup (fns.foldl (addOne hf work) acc).fs k = some v := by
  induction fns generalizing acc with
  | nil => exact h
  | cons f fns ih =>
    rw [List.foldl_cons]
    exact ih _ (addOne_mono hf work acc f k v h)

theorem addLoop_blob_stored (hf : String → String) (work : WorkTree)
    (fns : List String) (acc : AddAcc) (f c : String)
    (hinj : Function.Injective hf) (hwf : StoreWF hf acc.fs.objects)
    (hmem : f ∈ fns) (hc : workFind work f = some (.file c)) :
    objLookup (fns.foldl (addOne hf work) acc).fs (hf c) = some c := by
  induction fns generalizing acc with
  | nil => cases hmem
  | cons g fns ih =>
    rw [List.foldl_cons]
    by_cases hm : f ∈ fns
    · exact ih _ (addOne_wf hf work acc g hwf) hm
    · have hfg : f = g := by
        rcases List.mem_cons.mp hmem with h | h
        · exact h
        · exact absurd h hm
      subst hfg
      have hstep : objLookup (addOne hf work acc f).fs (hf c) = some c := by
        rw [addOne, hc]
        exact putBlob_lookup hf c acc.fs hinj hwf
      exact addLoop_mono hf work fns _ (hf c) c hstep

/-- Concrete string comparisons reduce through the character lists. -/
theorem strLt_of_toList (a b : String) (h : a.toList < b.toList) : a < b :=
  String.lt_iff_toList_lt.mpr h

theorem sorted_pair (k1 v1 k2 v2 : String) (h : k1.toList < k2.toList) :
    FileMap.Sorted [(k1, v1), (k2, v2)] := by
  refine List.Pairwise.cons ?_ (List.Pairwise.cons (by simp) List.Pairwise.nil)
  intro p hp
  rcases List.mem_singleton.mp hp with rfl
  exact strLt_of_toList k1 k2 h

/-! ## Claim C4 -/

/-- C4: `commit(message)` invoked while the Staging Index is empty
reports "nothing to commit", performs no state change (HEAD, the
Staging Index, and the object store are all unchanged), and the process
exits with code 0. -/
theorem commit_empty_staging_noop (hf : String → String) (msg : String)
    (fsys : RepoFS) (h : getStagingArea fsys = []) :
    commit hf msg fsys =
      .ok (fsys, [], ["Nothing to commit, working tree clean."]) ∧
    runCommit hf msg fsys = (fsys, 0) := by
  have hc : commit hf msg fsys =
      .ok (fsys, [], ["Nothing to commit, working tree clean."]) := by
    simp only [commit]
    rw [if_pos h]
    rfl
  exact ⟨hc, by rw [runCommit, hc]⟩

theorem commit_empty_staging_noop_witness :
    getStagingArea ⟨[("k", "v")], some "k", some ""⟩ = [] ∧
    commit id "m" ⟨[("k", "v")], some "k", some ""⟩ =
      .ok (⟨[("k", "v")], some "k", some ""⟩, [],
        ["Nothing to commit, working tree clean."]) ∧
    runCommit id "m" ⟨[("k", "v")], some "k", some ""⟩ =
      (⟨[("k", "v")], some "k", some ""⟩, 0) :=
  ⟨by decide,
   (commit_empty_staging_noop id "m" ⟨[("k", "v")], some "k", some ""⟩ (by decide)).1,
   (commit_empty_staging_noop id "m" ⟨[("k", "v")], some "k", some ""⟩ (by decide)).2⟩

/-! ## Claim C3 -/

/-- C3 counterexample: a stored commit object consisting of the single
line `garbage`, with no `parent: `, `message: ` or `file: ` field at
all, makes `getCommitFiles` return the empty snapshot successfully —
there is no CorruptObject failure for missing required fields. -/
theorem getCommitFiles_no_corrupt_error_cex :
    objLookup ⟨[("h1", "garbage")], some "h1", none⟩ "h1" = some "garbage" ∧
    getCommitFiles ⟨[("h1", "garbage")], some "h1", none⟩ "h1" = .ok [] :=
  ⟨rfl, rfl⟩

/-- C3 (amended): snapshot resolution returns the empty mapping for the
empty commit hash; for a non-empty hash it fails (with a thrown
"Cannot find commit object" error) when the commit object is missing,
and otherwise returns the parsed `file: ` entries of the stored object,
performing no validation of any other field. -/
theorem getCommitFiles_resolution (fsys : RepoFS) (h c : String) :
    getCommitFiles fsys "" = .ok [] ∧
    (h ≠ "" → objLookup fsys h = none →
      getCommitFiles fsys h = .error ("Cannot find commit object: " ++ h)) ∧
    (h ≠ "" → objLookup fsys h = some c →
      getCommitFiles fsys h = .ok (parseCommitFiles c)) := by
  refine ⟨rfl, ?_, ?_⟩
  · intro hne hl
    rw [getCommitFiles, if_neg hne, hl]
  · intro hne hl
    rw [getCommitFiles, if_neg hne, hl]

theorem getCommitFiles_resolution_witness :
    getCommitFiles wRepo "" = .ok [] ∧
    getCommitFiles wRepo "zzz" = .error ("Cannot find commit object: " ++ "zzz") ∧
    getCommitFiles wRepo "h1" =
      .ok (parseCommitFiles "parent: \nmessage: first\nfile: A hA\n") :=
  ⟨(getCommitFiles_resolution wRepo "zzz" "").1,
   (getCommitFiles_resolution wRepo "zzz" "").2.1 (by decide) (by decide),
   (getCommitFiles_resolution wRepo "h1"
      "parent: \nmessage: first\nfile: A hA\n").2.2 (by decide) (by decide)⟩

/-! ## Claim C7 -/

/-- C7 counterexample: the singleton map sending the filename `"a b"`
(which contains a space) to `"c"` is a legal `std::map`, but saving it
and loading it back yields the map `[("a", "b")]` — the round trip is
not mapping-equal to the input for arbitrary mappings. -/
theorem staging_roundtrip_cex :
    FileMap.Sorted [("a b", "c")] ∧
    FileMap.find [("a b", "c")] "a b" = some "c" ∧
    FileMap.find (getStagingArea (setStagingArea [("a b", "c")] wEmpty)) "a b" = none ∧
    getStagingArea (setStagingArea [("a b", "c")] wEmpty) = [("a", "b")] := by
  refine ⟨by decide, by decide, by decide, by decide⟩

/-- C7 (amended): for every `std::map` whose filenames and hashes are
non-empty and contain no whitespace, persisting the Staging Index with
`setStagingArea` and reloading it with `getStagingArea` yields exactly
the input map; and `getStagingArea` returns the empty mapping when no
index file has ever been persisted. -/
theorem staging_roundtrip (m : FileMap) (fsys fs2 : RepoFS)
    (hs : m.Sorted) (hsafe : ∀ p ∈ m, SafeTok p.1 ∧ SafeTok p.2)
    (hni : fs2.index = none) :
    getStagingArea (setStagingArea m fsys) = m ∧ getStagingArea fs2 = [] := by
  constructor
  · exact parseIndex_serializeIndex m hs hsafe
  · show (match fs2.index with | none => [] | some s => parseIndex s) = []
    rw [hni]

theorem staging_roundtrip_witness :
    FileMap.Sorted [("a", "h1"), ("b", "h2")] ∧
    getStagingArea (setStagingArea [("a", "h1"), ("b", "h2")] wEmpty) =
      [("a", "h1"), ("b", "h2")] ∧
    getStagingArea wEmpty = [] :=
  ⟨sorted_pair "a" "h1" "b" "h2" (by decide),
   (staging_roundtrip [("a", "h1"), ("b", "h2")] wEmpty wEmpty
      (sorted_pair "a" "h1" "b" "h2" (by decide)) (by decide) rfl).1,
   (staging_roundtrip [("a", "h1"), ("b", "h2")] wEmpty wEmpty
      (sorted_pair "a" "h1" "b" "h2" (by decide)) (by decide) rfl).2⟩

/-! ## Claim C5 -/

/-- C5: for all byte content `C`, storing `C` a second time yields the
same hash as the first time and is a no-op write — the resulting state
is unchanged and the store holds exactly one copy of `C` (under its
content hash); the unconditional re-write of an already-present object
with identical content (as in `commit`) also leaves the store
unchanged.  Assumes a well-formed store and a collision-free hash. -/
theorem store_dedup (hf : String → String) (C : String) (fsys : RepoFS)
    (hinj : Function.Injective hf) (hwf : StoreWF hf fsys.objects) :
    (putBlob hf C (putBlob hf C fsys).1).2 = (putBlob hf C fsys).2 ∧
    (putBlob hf C (putBlob hf C fsys).1).1 = (putBlob hf C fsys).1 ∧
    objLookup (putBlob hf C fsys).1 (hf C) = some C ∧
    ((putBlob hf C fsys).1.objects.filter fun p => p.2 == C) = [(hf C, C)] ∧
    writeObject (putBlob hf C fsys).1 (hf C) C = (putBlob hf C fsys).1 := by
  have hlk : objLookup (putBlob hf C fsys).1 (hf C) = some C :=
    putBlob_lookup hf C fsys hinj hwf
  have hwf1 : StoreWF hf (putBlob hf C fsys).1.objects := putBlob_wf hf C fsys hwf
  refine ⟨rfl, ?_, hlk, ?_, ?_⟩
  · show (if objLookup (putBlob hf C fsys).1 (hf C) = none
        then writeObject (putBlob hf C fsys).1 (hf C) C
        else (putBlob hf C fsys).1) = (putBlob hf C fsys).1
    rw [hlk]
    simp
  · exact filter_content_singleton _ C (hf C)
      (FileMap.find_some_mem _ _ _ hlk) hwf1.1
      (fun p hp hpc => by rw [hwf1.2 p hp, hpc])
  · rw [writeObject, storeInsert_of_find_some _ _ _ hlk]

theorem store_dedup_witness :
    StoreWF id wEmpty.objects ∧
    objLookup (putBlob id "x" wEmpty).1 (id "x") = some "x" ∧
    ((putBlob id "x" wEmpty).1.objects.filter fun p => p.2 == "x") = [(id "x", "x")] ∧
    (putBlob id "x" (putBlob id "x" wEmpty).1).1 = (putBlob id "x" wEmpty).1 :=
  ⟨by decide,
   (store_dedup id "x" wEmpty (fun a b h => h) (by decide)).2.2.1,
   (store_dedup id "x" wEmpty (fun a b h => h) (by decide)).2.2.2.1,
   (store_dedup id "x" wEmpty (fun a b h => h) (by decide)).2.1⟩

/-! ## Claim C8 -/

/-- C8: when the commit object for a non-empty hash is missing from the
object store, the `log` walk reports the fatal missing-object message
and halts; when the object is present, the printed entry is prepended
to whatever the rest of the walk produces, so entries printed before a
later failure remain in the output; snapshot resolution likewise fails
on a missing commit object. -/
theorem log_missing_object_halts (fsys : RepoFS) (fuel : Nat) (h c : String)
    (hne : h ≠ "") :
    (objLookup fsys h = none →
      logLoop fsys (fuel + 1) h =
        ([], some ("Fatal: Missing commit object " ++ h)) ∧
      getCommitFiles fsys h = .error ("Cannot find commit object: " ++ h)) ∧
    (objLookup fsys h = some c →
      logLoop fsys (fuel + 1) h =
        ((h, (parseCommitMeta c).2) ::
            (logLoop fsys fuel (parseCommitMeta c).1).1,
          (logLoop fsys fuel (parseCommitMeta c).1).2)) := by
  constructor
  · intro hl
    constructor
    · rw [logLoop, if_neg hne, hl]
    · rw [getCommitFiles, if_neg hne, hl]
  · intro hl
    rw [logLoop, if_neg hne, hl]

theorem log_missing_object_halts_witness :
    logLoop wDangling 1 "h1" = ([], some ("Fatal: Missing commit object " ++ "h1")) ∧
    getCommitFiles wDangling "h1" = .error ("Cannot find commit object: " ++ "h1") ∧
    logLoop wDangling 2 "h2" =
      (("h2", (parseCommitMeta "parent: h1\nmessage: second\n").2) ::
          (logLoop wDangling 1 (parseCommitMeta "parent: h1\nmessage: second\n").1).1,
        (logLoop wDangling 1 (parseCommitMeta "parent: h1\nmessage: second\n").1).2) :=
  ⟨((log_missing_object_halts wDangling 0 "h1" "" (by decide)).1 (by decide)).1,
   ((log_missing_object_halts wDangling 0 "h1" "" (by decide)).1 (by decide)).2,
   (log_missing_object_halts wDangling 1 "h2"
      "parent: h1\nmessage: second\n" (by decide)).2 (by decide)⟩

/-! ## Claim C1 -/

/-- C1: every commit created by `commit(message)` with a non-empty
staging index stores, under the new HEAD, a commit object whose
snapshot is the parent's snapshot (the empty mapping when HEAD is
empty) with every Staging Index entry inserted-or-overwritten by
filename: a filename resolves to its staged hash when staged and to the
parent's hash otherwise, so a file tracked by the parent and a newly
staged file both appear in the new snapshot. -/
theorem commit_snapshot_is_parent_merge (hf : String → String) (msg : String)
    (fsys : RepoFS) (parentFiles : FileMap)
    (hne : getStagingArea fsys ≠ [])
    (hp : (if getHEAD fsys = "" then (Except.ok [] : Except String FileMap)
        else getCommitFiles fsys (getHEAD fsys)) = Except.ok parentFiles) :
    ∃ fs1 tr outs,
      commit hf msg fsys = Except.ok (fs1, tr, outs) ∧
      objLookup fs1 (getHEAD fs1) =
        some (serializeCommit (getHEAD fsys) msg
          (mergeStaged parentFiles (getStagingArea fsys))) ∧
      ∀ k, FileMap.find (mergeStaged parentFiles (getStagingArea fsys)) k =
        (FileMap.find (getStagingArea fsys) k).or (FileMap.find parentFiles k) := by
  refine ⟨_, _, _, commit_ok hf msg fsys parentFiles hne hp, ?_, ?_⟩
  · exact objLookup_applyTrace hf msg fsys parentFiles
  · intro k
    exact mergeStaged_find parentFiles (getStagingArea fsys)
      (FileMap.sorted_keys_nodup _ (getStagingArea_sorted fsys)) k

theorem commit_snapshot_is_parent_merge_witness :
    getStagingArea wRepo ≠ [] ∧
    (if getHEAD wRepo = "" then (Except.ok [] : Except String FileMap)
      else getCommitFiles wRepo (getHEAD wRepo)) = Except.ok [("A", "hA")] ∧
    FileMap.find (mergeStaged [("A", "hA")] (getStagingArea wRepo)) "B" = some "hB" ∧
    FileMap.find (mergeStaged [("A", "hA")] (getStagingArea wRepo)) "A" = some "hA" := by
  have h1 : getStagingArea wRepo ≠ [] := by decide
  have h2 : (if getHEAD wRepo = "" then (Except.ok [] : Except String FileMap)
      else getCommitFiles wRepo (getHEAD wRepo)) = Except.ok [("A", "hA")] := rfl
  obtain ⟨fs1, tr, outs, hc, hobj, hfind⟩ :=
    commit_snapshot_is_parent_merge (fun _ => "h2") "second" wRepo [("A", "hA")] h1 h2
  exact ⟨h1, h2, (hfind "B").trans (by decide), (hfind "A").trans (by decide)⟩

/-! ## Claim C2 -/

/-- C2: a successful non-trivial `commit` performs exactly the write
effects [write commit object, update HEAD, clear index] in that order;
after any prefix of those effects, if HEAD has changed then it points
at the already-written commit object, and a failure at or before the
object write leaves HEAD unchanged. -/
theorem commit_effect_order (hf : String → String) (msg : String)
    (fsys : RepoFS) (parentFiles : FileMap)
    (hne : getStagingArea fsys ≠ [])
    (hp : (if getHEAD fsys = "" then (Except.ok [] : Except String FileMap)
        else getCommitFiles fsys (getHEAD fsys)) = Except.ok parentFiles) :
    ∃ fs1 outs,
      commit hf msg fsys = Except.ok (fs1, commitTrace hf msg fsys parentFiles, outs) ∧
      commitTrace hf msg fsys parentFiles =
        [Effect.writeObj (hf (commitText msg fsys parentFiles))
            (commitText msg fsys parentFiles),
         Effect.writeHEAD (hf (commitText msg fsys parentFiles)),
         Effect.writeIndex []] ∧
      fs1 = applyEffects fsys (commitTrace hf msg fsys parentFiles) ∧
      getHEAD (applyEffects fsys
          [Effect.writeObj (hf (commitText msg fsys parentFiles))
            (commitText msg fsys parentFiles)]) = getHEAD fsys ∧
      ∀ p t, p ++ t = commitTrace hf msg fsys parentFiles →
        getHEAD (applyEffects fsys p) ≠ getHEAD fsys →
        objLookup (applyEffects fsys p) (getHEAD (applyEffects fsys p)) =
          some (commitText msg fsys parentFiles) := by
  refine ⟨_, _, commit_ok hf msg fsys parentFiles hne hp, rfl, rfl, rfl, ?_⟩
  intro p t hpt hch
  rcases p with _ | ⟨e1, p⟩
  · exact absurd rfl hch
  rcases p with _ | ⟨e2, p⟩
  · rw [commitTrace] at hpt
    simp only [List.cons_append, List.nil_append, List.cons.injEq] at hpt
    obtain ⟨rfl, -⟩ := hpt
    exact absurd rfl hch
  rcases p with _ | ⟨e3, p⟩
  · rw [commitTrace] at hpt
    simp only [List.cons_append, List.nil_append, List.cons.injEq] at hpt
    obtain ⟨rfl, rfl, -⟩ := hpt
    show FileMap.find
        (storeInsert fsys.objects (hf (commitText msg fsys parentFiles))
          (commitText msg fsys parentFiles))
        (hf (commitText msg fsys parentFiles)) = _
    rw [storeFind_insert, if_pos rfl]
  · rw [commitTrace] at hpt
    simp only [List.cons_append, List.nil_append, List.cons.injEq] at hpt
    obtain ⟨rfl, rfl, rfl, hnil⟩ := hpt
    obtain ⟨rfl, -⟩ := List.append_eq_nil.mp hnil
    show FileMap.find
        (storeInsert fsys.objects (hf (commitText msg fsys parentFiles))
          (commitText msg fsys parentFiles))
        (hf (commitText msg fsys parentFiles)) = _
    rw [storeFind_insert, if_pos rfl]

theorem commit_effect_order_witness :
    getStagingArea wRepo ≠ [] ∧
    objLookup
        (applyEffects wRepo
          [Effect.writeObj "h2" (commitText "second" wRepo [("A", "hA")]),
           Effect.writeHEAD "h2"])
        (getHEAD (applyEffects wRepo
          [Effect.writeObj "h2" (commitText "second" wRepo [("A", "hA")]),
           Effect.writeHEAD "h2"])) =
      some (commitText "second" wRepo [("A", "hA")]) := by
  have h1 : getStagingArea wRepo ≠ [] := by decide
  obtain ⟨fs1, outs, hc, htr, hfs, hh, hpre⟩ :=
    commit_effect_order (fun _ => "h2") "second" wRepo [("A", "hA")] h1 rfl
  refine ⟨h1, ?_⟩
  exact hpre
    [Effect.writeObj "h2" (commitText "second" wRepo [("A", "hA")]),
     Effect.writeHEAD "h2"]
    [Effect.writeIndex []] rfl (by decide)

/-! ## Claim C6 -/

/-- C6: the commit object is serialised as the `parent: ` line, the
`message: ` line, then one `file: <filename> <hash>` line per snapshot
entry with the filenames in strictly sorted order; the new HEAD (the
commit id) is the content hash of exactly this serialised text, which
is stored under that id, so identical (parent, message, snapshot)
triples yield identical commit ids. -/
theorem commit_serialization_format (hf : String → String) (msg : String)
    (fsys : RepoFS) (parentFiles : FileMap)
    (hne : getStagingArea fsys ≠ [])
    (hp : (if getHEAD fsys = "" then (Except.ok [] : Except String FileMap)
        else getCommitFiles fsys (getHEAD fsys)) = Except.ok parentFiles) :
    ∃ fs1 tr outs,
      commit hf msg fsys = Except.ok (fs1, tr, outs) ∧
      serializeCommit (getHEAD fsys) msg
          (mergeStaged parentFiles (getStagingArea fsys)) =
        "parent: " ++ getHEAD fsys ++ "\n" ++ "message: " ++ msg ++ "\n" ++
          String.join ((mergeStaged parentFiles (getStagingArea fsys)).map
            fun p => "file: " ++ p.1 ++ " " ++ p.2 ++ "\n") ∧
      ((mergeStaged parentFiles (getStagingArea fsys)).map Prod.fst).Pairwise (· < ·) ∧
      getHEAD fs1 = hf (serializeCommit (getHEAD fsys) msg
        (mergeStaged parentFiles (getStagingArea fsys))) ∧
      objLookup fs1 (getHEAD fs1) =
        some (serializeCommit (getHEAD fsys) msg
          (mergeStaged parentFiles (getStagingArea fsys))) ∧
      ∀ msg2 fsys2 parentFiles2, getHEAD fsys2 = getHEAD fsys → msg2 = msg →
        mergeStaged parentFiles2 (getStagingArea fsys2) =
          mergeStaged parentFiles (getStagingArea fsys) →
        hf (commitText msg2 fsys2 parentFiles2) = getHEAD fs1 := by
  refine ⟨_, _, _, commit_ok hf msg fsys parentFiles hne hp, rfl, ?_, rfl,
    objLookup_applyTrace hf msg fsys parentFiles, ?_⟩
  · exact (List.pairwise_map).mpr
      (mergeStaged_sorted parentFiles (getStagingArea fsys)
        (resolveParent_sorted fsys parentFiles hp))
  · intro msg2 fsys2 pf2 h1 h2 h3
    rw [commitText, h1, h2, h3]
    rfl

theorem commit_serialization_format_witness :
    getStagingArea wRepo ≠ [] ∧
    ((mergeStaged [("A", "hA")] (getStagingArea wRepo)).map Prod.fst).Pairwise (· < ·) := by
  have h1 : getStagingArea wRepo ≠ [] := by decide
  obtain ⟨fs1, tr, outs, hc, hser, hsort, hhead, hobj, hdet⟩ :=
    commit_serialization_format (fun _ => "h2") "second" wRepo [("A", "hA")] h1 rfl
  exact ⟨h1, hsort⟩

/-! ## Claim C9 -/

/-- C9: `add` warns about (and skips) every argument that is missing or
a directory without aborting the batch, and for every argument that is
a regular file it stores the blob under its content hash and
inserts-or-overwrites filename → hash in the Staging Index; skipped
filenames leave their staging entry unchanged. -/
theorem add_batch (hf : String → String) (work : WorkTree)
    (filenames : List String) (fsys : RepoFS)
    (hinj : Function.Injective hf) (hwf : StoreWF hf fsys.objects) :
    (add hf work filenames fsys).1.index =
      some (serializeIndex (addStaged hf work (getStagingArea fsys) filenames)) ∧
    (add hf work filenames fsys).2.2 = filenames.filterMap (addWarn work) ∧
    (∀ f c, f ∈ filenames → workFind work f = some (.file c) →
      objLookup (add hf work filenames fsys).1 (hf c) = some c ∧
      FileMap.find (addStaged hf work (getStagingArea fsys) filenames) f =
        some (hf c)) ∧
    (∀ f, (∀ c, workFind work f ≠ some (.file c)) →
      FileMap.find (addStaged hf work (getStagingArea fsys) filenames) f =
        FileMap.find (getStagingArea fsys) f) := by
  refine ⟨?_, ?_, ?_, ?_⟩
  · show some (serializeIndex
        (filenames.foldl (addOne hf work) ⟨getStagingArea fsys, fsys, [], []⟩).staged) = _
    rw [addLoop_staged]
  · show (filenames.foldl (addOne hf work) ⟨getStagingArea fsys, fsys, [], []⟩).errs = _
    rw [addLoop_errs]
    rfl
  · intro f c hmem hc
    refine ⟨?_, addStaged_find_file hf work _ filenames f c hmem hc⟩
    show objLookup
        (filenames.foldl (addOne hf work) ⟨getStagingArea fsys, fsys, [], []⟩).fs
        (hf c) = some c
    exact addLoop_blob_stored hf work filenames _ f c hinj hwf hmem hc
  · intro f hsk
    exact addStaged_find_skip hf work _ filenames f hsk

theorem add_batch_witness :
    StoreWF id wEmpty.objects ∧
    (add id wWork ["A", "Z", "D"] wEmpty).2.2 =
      ["A", "Z", "D"].filterMap (addWarn wWork) ∧
    objLookup (add id wWork ["A", "Z", "D"] wEmpty).1 (id "ca") = some "ca" ∧
    FileMap.find (addStaged id wWork (getStagingArea wEmpty) ["A", "Z", "D"]) "A" =
      some (id "ca") ∧
    FileMap.find (addStaged id wWork (getStagingArea wEmpty) ["A", "Z", "D"]) "Z" =
      FileMap.find (getStagingArea wEmpty) "Z" := by
  have hwf : StoreWF id wEmpty.objects := by decide
  obtain ⟨hidx, herrs, hfile, hskip⟩ :=
    add_batch id wWork ["A", "Z", "D"] wEmpty (fun a b h => h) hwf
  obtain ⟨ho, hs⟩ := hfile "A" "ca" (by decide) (by decide)
  have hz : workFind wWork "Z" = none := by decide
  exact ⟨hwf, herrs, ho, hs, hskip "Z" fun c hc => by rw [hz] at hc; cases hc⟩

/-! ## Claim C10 -/

/-- C10 (implicit frame property): `add` never changes HEAD; the index
it persists is exactly the staged-map fold, which leaves every entry
whose filename is not among the arguments unchanged and never removes
an entry. -/
theorem add_frame (hf : String → String) (work : WorkTree)
    (filenames : List String) (fsys : RepoFS) :
    (add hf work filenames fsys).1.head = fsys.head ∧
    (add hf work filenames fsys).1.index =
      some (serializeIndex (addStaged hf work (getStagingArea fsys) filenames)) ∧
    (∀ f, f ∉ filenames →
      FileMap.find (addStaged hf work (getStagingArea fsys) filenames) f =
        FileMap.find (getStagingArea fsys) f) ∧
    (∀ f v, FileMap.find (getStagingArea fsys) f = some v →
      ∃ v', FileMap.find (addStaged hf work (getStagingArea fsys) filenames) f =
        some v') := by
  refine ⟨?_, ?_, ?_, ?_⟩
  · show (filenames.foldl (addOne hf work) ⟨getStagingArea fsys, fsys, [], []⟩).fs.head =
      fsys.head
    rw [addLoop_head]
  · show some (serializeIndex
        (filenames.foldl (addOne hf work) ⟨getStagingArea fsys, fsys, [], []⟩).staged) = _
    rw [addLoop_staged]
  · intro f hnm
    exact addStaged_find_not_mem hf work _ filenames f hnm
  · intro f v h
    exact addStaged_find_isSome hf work _ filenames f v h

theorem add_frame_witness :
    (add id wWork ["A", "Z", "D"] wRepo).1.head = wRepo.head ∧
    FileMap.find (addStaged id wWork (getStagingArea wRepo) ["A", "Z", "D"]) "B" =
      FileMap.find (getStagingArea wRepo) "B" := by
  obtain ⟨hh, hidx, hframe, hkeep⟩ := add_frame id wWork ["A", "Z", "D"] wRepo
  exact ⟨hh, hframe "B" (by decide)⟩

end MiniGit
